import Mathlib

/-!
Verification development for the JetBrains recent-projects scanner
(`jetbrains_projects.py`).  The Python source is shallowly embedded:
strings are `String`/`List Char`, XML trees are a mutual inductive,
Python dictionaries are association lists with shadowing, and the
environment/filesystem are explicit parameters.
-/

/-- Boolean test that `pat` is a prefix of `s` (character lists). -/
def pfx : List Char → List Char → Bool
  | [], _ => true
  | _ :: _, [] => false
  | a :: as, b :: bs => a == b && pfx as bs

/-- Boolean test that `pat` occurs as a contiguous substring of `s`,
the semantics of Python's `in` operator on strings. -/
def hasSub (pat : List Char) : List Char → Bool
  | [] => pfx pat []
  | c :: rest => pfx pat (c :: rest) || hasSub pat rest

/-- Fuel-indexed scan of Python's `str.replace` for a non-empty pattern:
replace leftmost non-overlapping occurrences of `pat` by `rep`.  The fuel
is a step bound; `strReplace` instantiates it with the length of `s`,
which `replaceAllF_irrel` shows is always sufficient. -/
def replaceAllF : Nat → List Char → List Char → List Char → List Char
  | _, [], _, _ => []
  | 0, s, _, _ => s
  | f + 1, c :: rest, pat, rep =>
    if pfx pat (c :: rest) then
      rep ++ replaceAllF f (List.drop (pat.length - 1) rest) pat rep
    else
      c :: replaceAllF f rest pat rep

/-- Python's `str.replace` on character lists, for a non-empty pattern. -/
def strReplace (s pat rep : List Char) : List Char :=
  replaceAllF s.length s pat rep

/-- Python's `s.replace(old, new)`.  For an empty `old`, Python splices
`new` around every character; the scanner only ever replaces the two
non-empty home tokens. -/
def pyReplace (s old new : String) : String :=
  if old.isEmpty then ⟨new.toList ++ s.toList.flatMap (fun c => c :: new.toList)⟩
  else ⟨strReplace s.toList old.toList new.toList⟩

/-- Python's `needle in hay` on strings. -/
def strContains (needle hay : String) : Bool :=
  hasSub needle.toList hay.toList

/-- Lines 68-69 of the source: expand `$USER_HOME$` and then `$HOME$` to
the resolved home directory, via `str.replace`. -/
def expandHome (p home : String) : String :=
  pyReplace (pyReplace p "$USER_HOME$" home) "$HOME$" home

mutual
/-- An XML element as seen through `xml.etree.ElementTree`: a tag, an
attribute dictionary and an ordered list of child elements.  Text nodes
are irrelevant to the scanner and omitted. -/
inductive XmlElem where
  | mk (tag : String) (attrs : List (String × String)) (children : XmlList)

/-- Children lists, mutually inductive with `XmlElem` so that functions
over the tree are structurally recursive. -/
inductive XmlList where
  | nil
  | cons (head : XmlElem) (tail : XmlList)
end

/-- The tag of an element. -/
def XmlElem.tag : XmlElem → String
  | .mk t _ _ => t

/-- The attribute list of an element. -/
def XmlElem.attrs : XmlElem → List (String × String)
  | .mk _ a _ => a

/-- The children of an element. -/
def XmlElem.children : XmlElem → XmlList
  | .mk _ _ cs => cs

/-- Children as an ordinary list. -/
def XmlList.toList : XmlList → List XmlElem
  | .nil => []
  | .cons c cs => c :: cs.toList

/-- `elem.get(k)`: attribute lookup returning `None` when absent. -/
def XmlElem.attr (e : XmlElem) (k : String) : Option String :=
  (e.attrs.find? (fun p => p.1 == k)).map (fun p => p.2)

/-- `elem.get(k, dflt)`: attribute lookup with a default. -/
def pyGet (e : XmlElem) (k dflt : String) : String :=
  (e.attr k).getD dflt

mutual
/-- All proper descendants of an element in document (preorder) order:
the search space of an ElementTree `.//` path. -/
def descendants : XmlElem → List XmlElem
  | .mk _ _ cs => descsOf cs

/-- Descendants-with-self of each element of a children list, concatenated
in document order. -/
def descsOf : XmlList → List XmlElem
  | .nil => []
  | .cons c cs => c :: (descendants c ++ descsOf cs)
end

/-- First proper descendant with the given tag: `elem.find('.//Tag')`. -/
def findDescTag (e : XmlElem) (t : String) : Option XmlElem :=
  (descendants e).find? (fun d => d.tag == t)

/-- Direct children with the given tag: `elem.findall('Tag')`. -/
def childrenTag (e : XmlElem) (t : String) : List XmlElem :=
  e.children.toList.filter (fun d => d.tag == t)

/-- A Python dict with string keys whose values may be `None`:
represented as an association list where the most recent binding wins. -/
def PyDict : Type := List (String × Option String)

/-- Dictionary update `d[k] = v`. -/
def dset (d : PyDict) (k : String) (v : Option String) : PyDict :=
  (k, v) :: d

/-- Dictionary read `d.get(k, dflt)`: the stored value (which may itself
be `None`) when the key is present, else the default. -/
def dget (d : PyDict) (k : String) (dflt : Option String) : Option String :=
  match d.find? (fun p => p.1 == k) with
  | some p => p.2
  | none => dflt

/-- The canonical record, mirroring `JetBrainsProject.__init__`.  Fields
bound from the metadata dict are `Option String`: `none` is Python
`None`, `some ""` is the empty-string default.  `is_last_opened` is the
dynamically added attribute of lines 104-106; it is never read by the
program, and absence of the attribute is observationally the default
`false`. -/
structure JetBrainsProject where
  ide_name : String
  ide_version : String
  project_path : String
  display_name : Option String
  frame_title : Option String
  activation_timestamp : Option String
  project_open_timestamp : Option String
  build : Option String
  metadata : Option String
  frame : Option String
  color_index : Option String
  is_last_opened : Bool
deriving DecidableEq

/-- `JetBrainsProject.__init__(ide_name, ide_version, project_path, data)`. -/
def JetBrainsProject.init (n v path : String) (data : PyDict) : JetBrainsProject :=
  { ide_name := n
    ide_version := v
    project_path := path
    display_name := dget data "displayName" (some "")
    frame_title := dget data "frameTitle" (some "")
    activation_timestamp := dget data "activationTimestamp" none
    project_open_timestamp := dget data "projectOpenTimestamp" none
    build := dget data "build" (some "")
    metadata := dget data "metadata" (some "")
    frame := dget data "frame" (some "")
    color_index := dget data "colorIndex" none
    is_last_opened := false }

/-- Rendering of an attribute inside the frame f-string: a missing
attribute is Python `None` and prints as `"None"`. -/
def pyAttrRepr (e : XmlElem) (k : String) : String :=
  match e.attr k with
  | some v => v
  | none => "None"

/-- Lines 92-95: the composed window-frame summary string. -/
def composeFrame (f : XmlElem) : String :=
  "x=" ++ pyAttrRepr f "x" ++ " y=" ++ pyAttrRepr f "y" ++
    " w=" ++ pyAttrRepr f "width" ++ " h=" ++ pyAttrRepr f "height"

/-- Lines 78-82: one step of the option-collecting loop; an option is
stored only when both its name and value are truthy (present and
non-empty). -/
def optStep (d : PyDict) (o : XmlElem) : PyDict :=
  match o.attr "name", o.attr "value" with
  | some nm, some vl => if nm.isEmpty || vl.isEmpty then d else dset d nm (some vl)
  | some _, none => d
  | none, _ => d

/-- Lines 72-95: build the `project_data` dict of one `entry` element. -/
def buildProjectData (entry : XmlElem) : PyDict :=
  match findDescTag entry "RecentProjectMetaInfo" with
  | none => []
  | some mi =>
    let d0 : PyDict := dset [] "displayName" (some (pyGet mi "displayName" ""))
    let d1 : PyDict := dset d0 "frameTitle" (some (pyGet mi "frameTitle" ""))
    let d2 : PyDict := (childrenTag mi "option").foldl optStep d1
    let d3 : PyDict :=
      match findDescTag mi "RecentProjectColorInfo" with
      | some ci => dset d2 "colorIndex" (ci.attr "associatedIndex")
      | none => d2
    match (childrenTag mi "frame").head? with
    | some f => dset d3 "frame" (some (composeFrame f))
    | none => d3

/-- Lines 64-97, loop body: one `entry` element becomes one record whose
path is the placeholder-expanded `key` attribute. -/
def entryRecord (n v home : String) (e : XmlElem) : JetBrainsProject :=
  JetBrainsProject.init n v (expandHome (pyGet e "key" "") home) (buildProjectData e)

/-- Line 60: the component-name marker check. -/
def nameMatches (comp : XmlElem) : Bool :=
  strContains "RecentProject" (pyGet comp "name" "") ||
    strContains "RecentSolution" (pyGet comp "name" "")

/-- Line 62: `component.find('.//option[@name="additionalInfo"]/map')` —
the first `map` child of a descendant `option` whose `name` attribute is
`additionalInfo`, in document order. -/
def findAdditionalInfoMap (comp : XmlElem) : Option XmlElem :=
  (((descendants comp).filter
      (fun e => e.tag == "option" && e.attr "name" == some "additionalInfo")).flatMap
    (fun o => childrenTag o "map")).head?

/-- Line 100: `component.find('.//option[@name="lastOpenedProject"]')`. -/
def findLastOpened (comp : XmlElem) : Option XmlElem :=
  ((descendants comp).filter
    (fun e => e.tag == "option" && e.attr "name" == some "lastOpenedProject")).head?

/-- The `lastOpenedProject` designator value of a component, when the
option element exists (line 102 applies a `''` default to its value). -/
def designatorOf (comp : XmlElem) : Option String :=
  (findLastOpened comp).map (fun lo => pyGet lo "value" "")

/-- The components scanned by line 58: `root.findall('.//component')`. -/
def componentsOf (root : XmlElem) : List XmlElem :=
  (descendants root).filter (fun e => e.tag == "component")

/-- Lines 58-106: processing of one component, threading the list of
records accumulated so far (the designator pass of lines 100-106 runs
over every record appended up to that point). -/
def parseComponent (n v home : String) (acc : List JetBrainsProject) (comp : XmlElem) :
    List JetBrainsProject :=
  if nameMatches comp then
    let acc1 :=
      match findAdditionalInfoMap comp with
      | some m => acc ++ (childrenTag m "entry").map (entryRecord n v home)
      | none => acc
    match findLastOpened comp with
    | some lo =>
      let lp := pyGet lo "value" ""
      acc1.map (fun p => if p.project_path == lp then { p with is_last_opened := true } else p)
    | none => acc1
  else acc

/-- `parse_recent_projects_xml`: the document is either a parse failure
(the `except` branch of lines 108-109 logs and falls through to return
the empty accumulator) or a root element. -/
def parse_recent_projects_xml (doc : Except String XmlElem) (n v home : String) :
    List JetBrainsProject :=
  match doc with
  | .error _ => []
  | .ok root => (componentsOf root).foldl (parseComponent n v home) []

/-- Spec-side enumeration, following the spec's words: the `entry`
elements under the recent-projects map of each matching component, read
off as their `key` attributes.  Used to compare the parser's output
against the spec's per-entry contract. -/
def specEntryKeysOfComponent (comp : XmlElem) : List String :=
  if nameMatches comp then
    match findAdditionalInfoMap comp with
    | some m => (childrenTag m "entry").map (fun e => pyGet e "key" "")
    | none => []
  else []

/-- Spec-side enumeration of all entry keys of a document. -/
def specEntryKeys (root : XmlElem) : List String :=
  (componentsOf root).flatMap specEntryKeysOfComponent

/-- Lines 130-138: split an IDE directory name with
`re.match(r'([A-Za-z]+)(\d+\.\d+(?:\.\d+)?)', name)`; no match means
version `Unknown`. -/
def splitIdeName (s : String) : String × String :=
  let cs := s.toList
  let letters := cs.takeWhile (fun c => ('A' ≤ c && c ≤ 'Z') || ('a' ≤ c && c ≤ 'z'))
  let rest := cs.drop letters.length
  let d1 := rest.takeWhile Char.isDigit
  if letters.isEmpty || d1.isEmpty then (s, "Unknown")
  else
    match rest.drop d1.length with
    | '.' :: r3 =>
      let d2 := r3.takeWhile Char.isDigit
      if d2.isEmpty then (s, "Unknown")
      else
        match r3.drop d2.length with
        | '.' :: r5 =>
          let d3 := r5.takeWhile Char.isDigit
          if d3.isEmpty then (⟨letters⟩, ⟨d1 ++ '.' :: d2⟩)
          else (⟨letters⟩, ⟨d1 ++ '.' :: d2 ++ '.' :: d3⟩)
        | _ => (⟨letters⟩, ⟨d1 ++ '.' :: d2⟩)
    | _ => (s, "Unknown")

/-- One IDE configuration directory, abstracted for the scan: its name
and the parse outcomes of the recent-project XML files that exist in its
`options` subdirectory, in probe order. -/
structure IdeDir where
  name : String
  files : List (Except String XmlElem)

/-- Whether a parse outcome is a failure. -/
def isErr (f : Except String XmlElem) : Bool :=
  match f with
  | .error _ => true
  | .ok _ => false

/-- `find_all_recent_projects`, with the filesystem abstracted: `none`
is a missing `~/.config/JetBrains` root (lines 120-122 return the empty
list), otherwise the IDE directories in iteration order.  Lines 125-147
concatenate the per-file parses. -/
def find_all_recent_projects (config : Option (List IdeDir)) (home : String) :
    List JetBrainsProject :=
  match config with
  | none => []
  | some dirs =>
    dirs.flatMap (fun d =>
      let nv := splitIdeName d.name
      d.files.flatMap (fun f => parse_recent_projects_xml f nv.1 nv.2 home))

/-- The sort key of lines 165 and 223: `p.activation_timestamp or '0'`
(Python truthiness: `None` and the empty string both fall back to the
string `'0'`). -/
def sortKeyStr (p : JetBrainsProject) : List Char :=
  match p.activation_timestamp with
  | some v => if v.isEmpty then ['0'] else v.toList
  | none => ['0']

/-- Python string `<`: lexicographic comparison by code point. -/
def strLtB : List Char → List Char → Bool
  | [], [] => false
  | [], _ :: _ => true
  | _ :: _, [] => false
  | a :: as, b :: bs => if a < b then true else if b < a then false else strLtB as bs

/-- Stable descending insertion: `x` goes after every element whose key
is not smaller, reproducing Python's stable `sort(key=..., reverse=True)`
extensionally. -/
def insertDesc (x : JetBrainsProject) : List JetBrainsProject → List JetBrainsProject
  | [] => [x]
  | y :: ys => if strLtB (sortKeyStr y) (sortKeyStr x) then x :: y :: ys else y :: insertDesc x ys

/-- Stable descending sort by the activation key. -/
def pySortDesc (l : List JetBrainsProject) : List JetBrainsProject :=
  l.foldl (fun acc x => insertDesc x acc) []

/-- Line 157: the grouping key `f"{ide_name} {ide_version}"`. -/
def ideKey (p : JetBrainsProject) : String :=
  p.ide_name ++ " " ++ p.ide_version

/-- The global view of `display_all_projects_sorted` (lines 221-225):
all records sorted descending by the activation key. -/
def display_all_sorted_order (projects : List JetBrainsProject) : List JetBrainsProject :=
  pySortDesc projects

/-- The partition of the grouped view of `display_projects_by_ide` for
one group key: records of that IDE in insertion order, then the in-place
sort of lines 163-167. -/
def groupedOrder (projects : List JetBrainsProject) (k : String) : List JetBrainsProject :=
  pySortDesc (projects.filter (fun p => ideKey p == k))

/-- One exported object (lines 249-262).  `activation_time` abstracts
`datetime.fromtimestamp(int(ts)/1000).isoformat()` through the `isoOf`
parameter; `existsOnDisk` is the `exists` key, probed per record. -/
structure ExportEntry where
  ide_name : String
  ide_version : String
  project_path : String
  display_name : Option String
  frame_title : Option String
  activation_timestamp : Option String
  project_open_timestamp : Option String
  activation_time : Option String
  build : Option String
  frame : Option String
  color_index : Option String
  existsOnDisk : Bool
deriving DecidableEq

/-- Truthiness gate of `get_activation_time` (line 29): only a present,
non-empty timestamp string is converted. -/
def truthyTs : Option String → Option String
  | some v => if v.isEmpty then none else some v
  | none => none

/-- One record's export object.  `fs` is the filesystem probe
`os.path.exists` at export time. -/
def exportEntryOf (fs : String → Bool) (isoOf : String → String) (p : JetBrainsProject) :
    ExportEntry :=
  { ide_name := p.ide_name
    ide_version := p.ide_version
    project_path := p.project_path
    display_name := p.display_name
    frame_title := p.frame_title
    activation_timestamp := p.activation_timestamp
    project_open_timestamp := p.project_open_timestamp
    activation_time := (truthyTs p.activation_timestamp).map isoOf
    build := p.build
    frame := p.frame
    color_index := p.color_index
    existsOnDisk := fs p.project_path }

/-- The sequence of interchange objects written by `export_to_json`. -/
def export_to_json_data (projects : List JetBrainsProject) (fs : String → Bool)
    (isoOf : String → String) : List ExportEntry :=
  projects.map (exportEntryOf fs isoOf)

/-- Line 245's default output name. -/
def defaultJsonName : String := "jetbrains_projects.json"

/-- Lines 244-245: the output destination, from the explicit argument,
else the `JSON_OUTPUT_PATH` environment value, else the default. -/
def export_destination (envJson : Option String) (outputFile : Option String) : String :=
  match outputFile with
  | some f => f
  | none => envJson.getD defaultJsonName

/-- The observable outcome of `main`: whether the project report
(grouped view + global view) was shown, and what was exported where. -/
structure MainOutcome where
  reportShown : Bool
  exported : Option (String × List ExportEntry)
deriving DecidableEq

/-- Lines 270-292: `main`, with the environment variable, the scan
result and the filesystem/state parameters made explicit.  With
`JSON_OUTPUT_PATH` set it silently exports; otherwise it reports and
exports, except that an empty scan returns early (lines 281-283). -/
def main_run (envJson : Option String) (scan : List JetBrainsProject) (fs : String → Bool)
    (isoOf : String → String) : MainOutcome :=
  match envJson with
  | some _ =>
    { reportShown := false
      exported := some (export_destination envJson none, export_to_json_data scan fs isoOf) }
  | none =>
    if scan.isEmpty then { reportShown := false, exported := none }
    else
      { reportShown := true
        exported := some (export_destination none none, export_to_json_data scan fs isoOf) }

/-- The home-token character lists. -/
def uTok : List Char := "$USER_HOME$".toList

/-- The short home token. -/
def hTok : List Char := "$HOME$".toList

/-- Whether a component's designator value (if any) still contains a
home-placeholder token. -/
def designatorTokenized (comp : XmlElem) : Bool :=
  match designatorOf comp with
  | some d => hasSub uTok d.toList || hasSub hTok d.toList
  | none => true

/-- The property that some matching component of the scanned list carries
a designator equal to a record's path: what a set `is_last_opened` flag
certifies. -/
def flagWitness (L : List XmlElem) (p : JetBrainsProject) : Prop :=
  ∃ c, c ∈ L ∧ nameMatches c = true ∧ designatorOf c = some p.project_path

/-- Invariant carried through the designator pass when every designator
is still tokenized: the record is unflagged and its (expanded) path
contains no home token. -/
def tokenFree (p : JetBrainsProject) : Prop :=
  p.is_last_opened = false ∧ hasSub uTok p.project_path.toList = false ∧
    hasSub hTok p.project_path.toList = false

/-- Fixture: a frame element carrying only the `x` attribute. -/
def cFrame2 : XmlElem := .mk "frame" [("x", "1")] .nil

/-- Fixture: meta info whose only child is the incomplete frame. -/
def cMi2 : XmlElem := .mk "RecentProjectMetaInfo" [] (.cons cFrame2 .nil)

/-- Fixture: an entry with the incomplete-frame meta info. -/
def cEntry2 : XmlElem := .mk "entry" [("key", "/p")] (.cons cMi2 .nil)

/-- Fixture: the surrounding map element. -/
def cMap2 : XmlElem := .mk "map" [] (.cons cEntry2 .nil)

/-- Fixture: the `additionalInfo` option. -/
def cOptAdd2 : XmlElem := .mk "option" [("name", "additionalInfo")] (.cons cMap2 .nil)

/-- Fixture: a matching component holding the map. -/
def cComp2 : XmlElem :=
  .mk "component" [("name", "RecentProjectsManager")] (.cons cOptAdd2 .nil)

/-- Fixture: a document whose one entry has a frame with only `x`. -/
def cRoot2 : XmlElem := .mk "application" [] (.cons cComp2 .nil)

/-- Fixture: an entry with no nested meta info at all. -/
def cEntry3 : XmlElem := .mk "entry" [("key", "/p")] .nil

/-- Fixture: map around the bare entry. -/
def cMap3 : XmlElem := .mk "map" [] (.cons cEntry3 .nil)

/-- Fixture: `additionalInfo` option around the map. -/
def cOptAdd3 : XmlElem := .mk "option" [("name", "additionalInfo")] (.cons cMap3 .nil)

/-- Fixture: matching component around the option. -/
def cComp3 : XmlElem :=
  .mk "component" [("name", "RecentProjectsManager")] (.cons cOptAdd3 .nil)

/-- Fixture: a document with one metadata-less entry. -/
def cRoot3 : XmlElem := .mk "application" [] (.cons cComp3 .nil)

/-- Fixture record: no activation timestamp. -/
def recNone : JetBrainsProject :=
  { ide_name := "R", ide_version := "1", project_path := "/q",
    display_name := some "", frame_title := some "",
    activation_timestamp := none, project_open_timestamp := none,
    build := some "", metadata := some "", frame := some "",
    color_index := none, is_last_opened := false }

/-- Fixture record: activation timestamp string `"0"`. -/
def recZero : JetBrainsProject :=
  { recNone with project_path := "/p", activation_timestamp := some "0" }

/-- Fixture record: activation timestamp string `"5"`. -/
def recFive : JetBrainsProject :=
  { recNone with project_path := "/r", activation_timestamp := some "5" }

/-- Fixture: an IDE directory whose only metadata file fails to parse. -/
def cBadDir : IdeDir := { name := "Rider2025.1", files := [Except.error "truncated"] }

/-- Fixture: an IDE directory with one well-formed metadata file. -/
def cGoodDir : IdeDir := { name := "CLion", files := [Except.ok cRoot3] }

/-- Fixture: a `lastOpenedProject` designator option with value `/a`. -/
def cOptLast7 : XmlElem :=
  .mk "option" [("name", "lastOpenedProject"), ("value", "/a")] .nil

/-- Fixture: a matching component holding only the designator. -/
def cComp7a : XmlElem :=
  .mk "component" [("name", "RecentProjectsManager")] (.cons cOptLast7 .nil)

/-- Fixture: an entry with key `/a` and no meta info. -/
def cEntry7 : XmlElem := .mk "entry" [("key", "/a")] .nil

/-- Fixture: map around the `/a` entry. -/
def cMap7 : XmlElem := .mk "map" [] (.cons cEntry7 .nil)

/-- Fixture: `additionalInfo` option around the map. -/
def cOptAdd7 : XmlElem := .mk "option" [("name", "additionalInfo")] (.cons cMap7 .nil)

/-- Fixture: a matching component holding only the entries. -/
def cComp7b : XmlElem :=
  .mk "component" [("name", "RecentProjectsManager")] (.cons cOptAdd7 .nil)

/-- Fixture: a document whose designator sits in an earlier component
than the entry it names. -/
def cRoot7 : XmlElem := .mk "application" [] (.cons cComp7a (.cons cComp7b .nil))

/-- Fixture: a map with two entries sharing the key `/a`. -/
def cMapB : XmlElem := .mk "map" [] (.cons cEntry7 (.cons cEntry7 .nil))

/-- Fixture: `additionalInfo` option around the duplicate-key map. -/
def cOptAddB : XmlElem := .mk "option" [("name", "additionalInfo")] (.cons cMapB .nil)

/-- Fixture: a single matching component with both the duplicate entries
and the designator for `/a`. -/
def cCompB : XmlElem :=
  .mk "component" [("name", "RecentProjectsManager")]
    (.cons cOptAddB (.cons cOptLast7 .nil))

/-- Fixture: a single-component document whose designator matches two
records. -/
def cRootB : XmlElem := .mk "application" [] (.cons cCompB .nil)

/-- Fixture record: the `/a` record once flagged. -/
def recB : JetBrainsProject :=
  { recNone with project_path := "/a", is_last_opened := true }

/-- Fixture: a designator whose value still carries the home token. -/
def cOptLastT : XmlElem :=
  .mk "option" [("name", "lastOpenedProject"), ("value", "$USER_HOME$/proj")] .nil

/-- Fixture: an entry keyed by the home token. -/
def cEntryT : XmlElem := .mk "entry" [("key", "$USER_HOME$/proj")] .nil

/-- Fixture: map around the tokenized entry. -/
def cMapT : XmlElem := .mk "map" [] (.cons cEntryT .nil)

/-- Fixture: `additionalInfo` option around the tokenized map. -/
def cOptAddT : XmlElem := .mk "option" [("name", "additionalInfo")] (.cons cMapT .nil)

/-- Fixture: a matching component with a tokenized designator and entry. -/
def cCompT : XmlElem :=
  .mk "component" [("name", "RecentProjectsManager")]
    (.cons cOptAddT (.cons cOptLastT .nil))

/-- Fixture: a document where designator and key both use the token. -/
def cRootT : XmlElem := .mk "application" [] (.cons cCompT .nil)

/-- Fixture record: the expanded tokenized entry, unflagged. -/
def recT : JetBrainsProject :=
  { recNone with project_path := "/home/u/proj" }

theorem replaceAllF_nil (f : Nat) (pat rep : List Char) :
    replaceAllF f [] pat rep = [] := by
  cases f <;> rfl

theorem replaceAllF_irrel :
    ∀ n : Nat, ∀ s : List Char, s.length ≤ n →
      ∀ f g : Nat, s.length ≤ f → s.length ≤ g → ∀ pat rep : List Char,
        replaceAllF f s pat rep = replaceAllF g s pat rep := by
  intro n
  induction n with
  | zero =>
    intro s hs f g _ _ pat rep
    have : s = [] := List.length_eq_zero.mp (Nat.le_zero.mp hs)
    subst this
    simp [replaceAllF_nil]
  | succ n ih =>
    intro s hs f g hf hg pat rep
    match s with
    | [] => simp [replaceAllF_nil]
    | c :: rest =>
      match f, g with
      | f' + 1, g' + 1 =>
        have hrest : rest.length ≤ n := Nat.lt_succ_iff.mp (Nat.lt_of_lt_of_le (by simp) hs)
        have hfr : rest.length ≤ f' := Nat.lt_succ_iff.mp (Nat.lt_of_lt_of_le (by simp) hf)
        have hgr : rest.length ≤ g' := Nat.lt_succ_iff.mp (Nat.lt_of_lt_of_le (by simp) hg)
        have hdl : (List.drop (pat.length - 1) rest).length ≤ rest.length := by
          simp [List.length_drop]
        show (if pfx pat (c :: rest) then
                rep ++ replaceAllF f' (List.drop (pat.length - 1) rest) pat rep
              else c :: replaceAllF f' rest pat rep)
           = (if pfx pat (c :: rest) then
                rep ++ replaceAllF g' (List.drop (pat.length - 1) rest) pat rep
              else c :: replaceAllF g' rest pat rep)
        by_cases hp : pfx pat (c :: rest) = true
        · rw [if_pos hp, if_pos hp]
          congr 1
          exact ih _ (Nat.le_trans hdl hrest) f' g'
            (Nat.le_trans hdl hfr) (Nat.le_trans hdl hgr) pat rep
        · rw [if_neg hp, if_neg hp]
          congr 1
          exact ih rest hrest f' g' hfr hgr pat rep

theorem strReplace_nil (pat rep : List Char) : strReplace [] pat rep = [] := by
  simp [strReplace, replaceAllF_nil]

theorem strReplace_cons (c : Char) (rest pat rep : List Char) :
    strReplace (c :: rest) pat rep =
      if pfx pat (c :: rest) then
        rep ++ strReplace (List.drop (pat.length - 1) rest) pat rep
      else
        c :: strReplace rest pat rep := by
  have hdl : (List.drop (pat.length - 1) rest).length ≤ rest.length := by
    simp [List.length_drop]
  show (if pfx pat (c :: rest) then
          rep ++ replaceAllF rest.length (List.drop (pat.length - 1) rest) pat rep
        else c :: replaceAllF rest.length rest pat rep) = _
  by_cases hp : pfx pat (c :: rest) = true
  · rw [if_pos hp, if_pos hp]
    congr 1
    exact replaceAllF_irrel rest.length _ hdl _ _ hdl (Nat.le_refl _) pat rep
  · rw [if_neg hp, if_neg hp]
    rfl

example : strReplace "$USER_HOME$/proj".toList "$USER_HOME$".toList "/home/u".toList
    = "/home/u/proj".toList := by decide

example : expandHome "$USER_HOME$/proj" "/home/u" = "/home/u/proj" := by decide

theorem pfx_nil_of_ne_nil (q : List Char) (hq : q ≠ []) : pfx q [] = false := by
  match q with
  | [] => exact absurd rfl hq
  | a :: as => rfl

theorem hasSub_nil_of_ne_nil (q : List Char) (hq : q ≠ []) : hasSub q [] = false := by
  simpa [hasSub] using pfx_nil_of_ne_nil q hq

theorem hasSub_cons_false (q : List Char) (c : Char) (rest : List Char)
    (h : hasSub q (c :: rest) = false) :
    pfx q (c :: rest) = false ∧ hasSub q rest = false := by
  have h' : (pfx q (c :: rest) || hasSub q rest) = false := h
  exact ⟨by
    cases hp : pfx q (c :: rest) with
    | false => rfl
    | true => simp [hp] at h', by
    cases hs : hasSub q rest with
    | false => rfl
    | true => simp [hs] at h'⟩

theorem hasSub_drop_false (q : List Char) :
    ∀ (k : Nat) (t : List Char), hasSub q t = false → hasSub q (List.drop k t) = false := by
  intro k
  induction k with
  | zero => intro t h; simpa using h
  | succ k ih =>
    intro t h
    match t with
    | [] => simpa using h
    | c :: ts =>
      have := (hasSub_cons_false q c ts h).2
      simpa [List.drop] using ih ts this

theorem hasSub_append_false (pset q : List Char) (hq : q ≠ []) (hqs : ∀ c ∈ q, c ∈ pset) :
    ∀ rep : List Char, (∀ c ∈ rep, c ∉ pset) →
      ∀ R : List Char, hasSub q R = false → hasSub q (rep ++ R) = false := by
  intro rep
  induction rep with
  | nil => intro _ R h; simpa using h
  | cons r0 rep' ih =>
    intro hrd R h
    have hrd' : ∀ c ∈ rep', c ∉ pset := fun c hc => hrd c (List.mem_cons_of_mem r0 hc)
    have htail : hasSub q (rep' ++ R) = false := ih hrd' R h
    match q, hq with
    | q0 :: q', _ =>
      have hq0 : q0 ∈ pset := hqs q0 (List.mem_cons_self q0 q')
      have hr0 : r0 ∉ pset := hrd r0 (List.mem_cons_self r0 rep')
      have hne : q0 ≠ r0 := fun he => hr0 (he ▸ hq0)
      have hbeq : (q0 == r0) = false := beq_eq_false_iff_ne.mpr hne
      show (pfx (q0 :: q') (r0 :: (rep' ++ R)) || hasSub (q0 :: q') (rep' ++ R)) = false
      rw [htail]
      show (((q0 == r0) && pfx q' (rep' ++ R)) || false) = false
      rw [hbeq]
      rfl

theorem pfx_reflect (pat rep pset : List Char) (hrep : rep ≠ [])
    (hrd : ∀ c ∈ rep, c ∉ pset) :
    ∀ n : Nat, ∀ s : List Char, s.length ≤ n → ∀ q : List Char, q ≠ [] →
      (∀ c ∈ q, c ∈ pset) → pfx q (strReplace s pat rep) = true → pfx q s = true := by
  intro n
  induction n with
  | zero =>
    intro s hs q hq hqs hpfx
    have : s = [] := List.length_eq_zero.mp (Nat.le_zero.mp hs)
    subst this
    rw [strReplace_nil] at hpfx
    rw [pfx_nil_of_ne_nil q hq] at hpfx
    exact absurd hpfx (by simp)
  | succ n ih =>
    intro s hs q hq hqs hpfx
    match s with
    | [] =>
      rw [strReplace_nil] at hpfx
      rw [pfx_nil_of_ne_nil q hq] at hpfx
      exact absurd hpfx (by simp)
    | c :: rest =>
      have hrest : rest.length ≤ n := Nat.lt_succ_iff.mp (Nat.lt_of_lt_of_le (by simp) hs)
      rw [strReplace_cons] at hpfx
      by_cases hp : pfx pat (c :: rest) = true
      · rw [if_pos hp] at hpfx
        match rep, hrep with
        | r0 :: rep', _ =>
          match q, hq with
          | q0 :: q', _ =>
            have hq0 : q0 ∈ pset := hqs q0 (List.mem_cons_self q0 q')
            have hr0 : r0 ∉ pset := hrd r0 (List.mem_cons_self r0 rep')
            have hne : q0 ≠ r0 := fun he => hr0 (he ▸ hq0)
            have hbeq : (q0 == r0) = false := beq_eq_false_iff_ne.mpr hne
            have hstep : ((q0 == r0) &&
                pfx q' (rep' ++ strReplace (List.drop (pat.length - 1) rest) pat (r0 :: rep')))
                = true := hpfx
            rw [hbeq] at hstep
            exact absurd hstep (by simp)
      · rw [if_neg hp] at hpfx
        match q, hq with
        | q0 :: q', _ =>
          have hstep : ((q0 == c) && pfx q' (strReplace rest pat rep)) = true := hpfx
          simp only [Bool.and_eq_true] at hstep
          have hq0c : (q0 == c) = true := hstep.1
          have hq' : pfx q' (strReplace rest pat rep) = true := hstep.2
          match q' with
          | [] =>
            show ((q0 == c) && pfx [] rest) = true
            rw [hq0c]
            rfl
          | q1 :: qs =>
            have hsub : ∀ c' ∈ q1 :: qs, c' ∈ pset :=
              fun c' hc' => hqs c' (List.mem_cons_of_mem q0 hc')
            have := ih rest hrest (q1 :: qs) (by simp) hsub hq'
            show ((q0 == c) && pfx (q1 :: qs) rest) = true
            rw [hq0c, this]
            rfl

theorem noocc_preserve (pat rep pset q : List Char) (hrep : rep ≠ []) (hq : q ≠ [])
    (hqs : ∀ c ∈ q, c ∈ pset) (hrd : ∀ c ∈ rep, c ∉ pset) :
    ∀ n : Nat, ∀ s : List Char, s.length ≤ n → hasSub q s = false →
      hasSub q (strReplace s pat rep) = false := by
  intro n
  induction n with
  | zero =>
    intro s hs _
    have : s = [] := List.length_eq_zero.mp (Nat.le_zero.mp hs)
    subst this
    rw [strReplace_nil]
    exact hasSub_nil_of_ne_nil q hq
  | succ n ih =>
    intro s hs h
    match s with
    | [] =>
      rw [strReplace_nil]
      exact hasSub_nil_of_ne_nil q hq
    | c :: rest =>
      have hrest : rest.length ≤ n := Nat.lt_succ_iff.mp (Nat.lt_of_lt_of_le (by simp) hs)
      obtain ⟨hp0, hsr⟩ := hasSub_cons_false q c rest h
      rw [strReplace_cons]
      by_cases hpp : pfx pat (c :: rest) = true
      · rw [if_pos hpp]
        have hdl : (List.drop (pat.length - 1) rest).length ≤ n := by
          exact Nat.le_trans (by simp [List.length_drop]) hrest
        have hds : hasSub q (List.drop (pat.length - 1) rest) = false :=
          hasSub_drop_false q _ rest hsr
        exact hasSub_append_false pset q hq hqs rep hrd _ (ih _ hdl hds)
      · rw [if_neg hpp]
        have hR : hasSub q (strReplace rest pat rep) = false := ih rest hrest hsr
        show (pfx q (c :: strReplace rest pat rep) || hasSub q (strReplace rest pat rep)) = false
        rw [hR]
        have hpf : pfx q (c :: strReplace rest pat rep) = false := by
          cases hcase : pfx q (c :: strReplace rest pat rep) with
          | false => rfl
          | true =>
            exfalso
            match q, hq with
            | q0 :: q', _ =>
              have hstep : ((q0 == c) && pfx q' (strReplace rest pat rep)) = true := hcase
              simp only [Bool.and_eq_true] at hstep
              match q' with
              | [] =>
                have : pfx (q0 :: ([] : List Char)) (c :: rest) = true := by
                  show ((q0 == c) && pfx [] rest) = true
                  rw [hstep.1]
                  rfl
                rw [this] at hp0
                exact Bool.noConfusion hp0
              | q1 :: qs =>
                have hsubq : ∀ c' ∈ q1 :: qs, c' ∈ pset :=
                  fun c' hc' => hqs c' (List.mem_cons_of_mem q0 hc')
                have := pfx_reflect pat rep pset hrep hrd n rest hrest (q1 :: qs)
                  (by simp) hsubq hstep.2
                have hfull : pfx (q0 :: q1 :: qs) (c :: rest) = true := by
                  show ((q0 == c) && pfx (q1 :: qs) rest) = true
                  rw [hstep.1, this]
                  rfl
                rw [hfull] at hp0
                exact Bool.noConfusion hp0
        rw [hpf]
        rfl

theorem self_noocc (pat rep pset : List Char) (hpat : pat ≠ []) (hrep : rep ≠ [])
    (hps : ∀ c ∈ pat, c ∈ pset) (hrd : ∀ c ∈ rep, c ∉ pset) :
    ∀ n : Nat, ∀ s : List Char, s.length ≤ n → hasSub pat (strReplace s pat rep) = false := by
  intro n
  induction n with
  | zero =>
    intro s hs
    have : s = [] := List.length_eq_zero.mp (Nat.le_zero.mp hs)
    subst this
    rw [strReplace_nil]
    exact hasSub_nil_of_ne_nil pat hpat
  | succ n ih =>
    intro s hs
    match s with
    | [] =>
      rw [strReplace_nil]
      exact hasSub_nil_of_ne_nil pat hpat
    | c :: rest =>
      have hrest : rest.length ≤ n := Nat.lt_succ_iff.mp (Nat.lt_of_lt_of_le (by simp) hs)
      rw [strReplace_cons]
      by_cases hpp : pfx pat (c :: rest) = true
      · rw [if_pos hpp]
        have hdl : (List.drop (pat.length - 1) rest).length ≤ n := by
          exact Nat.le_trans (by simp [List.length_drop]) hrest
        exact hasSub_append_false pset pat hpat hps rep hrd _ (ih _ hdl)
      · rw [if_neg hpp]
        have hR : hasSub pat (strReplace rest pat rep) = false := ih rest hrest
        show (pfx pat (c :: strReplace rest pat rep) || hasSub pat (strReplace rest pat rep)) = false
        rw [hR]
        have hpf : pfx pat (c :: strReplace rest pat rep) = false := by
          cases hcase : pfx pat (c :: strReplace rest pat rep) with
          | false => rfl
          | true =>
            exfalso
            match pat, hpat with
            | p0 :: p', _ =>
              have hstep : ((p0 == c) && pfx p' (strReplace rest (p0 :: p') rep)) = true := hcase
              simp only [Bool.and_eq_true] at hstep
              match p' with
              | [] =>
                have : pfx (p0 :: ([] : List Char)) (c :: rest) = true := by
                  show ((p0 == c) && pfx [] rest) = true
                  rw [hstep.1]
                  rfl
                rw [this] at hpp
                exact hpp rfl
              | p1 :: ps =>
                have hsubp : ∀ c' ∈ p1 :: ps, c' ∈ pset :=
                  fun c' hc' => hps c' (List.mem_cons_of_mem p0 hc')
                have := pfx_reflect (p0 :: p1 :: ps) rep pset hrep hrd n rest hrest
                  (p1 :: ps) (by simp) hsubp hstep.2
                have hfull : pfx (p0 :: p1 :: ps) (c :: rest) = true := by
                  show ((p0 == c) && pfx (p1 :: ps) rest) = true
                  rw [hstep.1, this]
                  rfl
                exact hpp hfull
        rw [hpf]
        rfl

theorem strReplace_of_noocc (pat rep : List Char) :
    ∀ s : List Char, hasSub pat s = false → strReplace s pat rep = s := by
  intro s
  induction s with
  | nil => intro _; exact strReplace_nil pat rep
  | cons c rest ih =>
    intro h
    obtain ⟨hp0, hsr⟩ := hasSub_cons_false pat c rest h
    rw [strReplace_cons, if_neg (by rw [hp0]; exact Bool.noConfusion)]
    rw [ih hsr]

theorem pyReplace_toList (s old new : String) (h : old.isEmpty = false) :
    (pyReplace s old new).toList = strReplace s.toList old.toList new.toList := by
  rw [pyReplace, if_neg (by rw [h]; exact Bool.noConfusion)]
  rfl

theorem expandHome_toList (p home : String) :
    (expandHome p home).toList
      = strReplace (strReplace p.toList uTok home.toList) hTok home.toList := by
  rw [expandHome, pyReplace_toList _ _ _ (by rfl),
    pyReplace_toList _ _ _ (by rfl)]
  rfl

theorem string_eq_of_toList {s t : String} (h : s.toList = t.toList) : s = t := by
  cases s with
  | mk ds =>
    cases t with
    | mk dt =>
      exact congrArg String.mk h

theorem hTok_subset_uTok : ∀ c ∈ hTok, c ∈ uTok := by decide

theorem expandHome_noocc (home : String) (hne : home.toList ≠ [])
    (hd : ∀ c ∈ home.toList, c ∉ uTok) (s : String) :
    hasSub uTok (expandHome s home).toList = false ∧
    hasSub hTok (expandHome s home).toList = false := by
  have huno : hasSub uTok (strReplace s.toList uTok home.toList) = false :=
    self_noocc uTok home.toList uTok (by decide) hne (fun c hc => hc) hd
      s.toList.length s.toList (Nat.le_refl _)
  constructor
  · rw [expandHome_toList]
    exact noocc_preserve hTok home.toList uTok uTok hne (by decide)
      (fun c hc => hc) hd (strReplace s.toList uTok home.toList).length _
      (Nat.le_refl _) huno
  · rw [expandHome_toList]
    exact self_noocc hTok home.toList uTok (by decide) hne hTok_subset_uTok hd
      (strReplace s.toList uTok home.toList).length _ (Nat.le_refl _)

/-- Claim C9: home-placeholder expansion replaces the tokens wherever
they occur inside the key (substring replacement: no token occurrence
survives expansion), and it is idempotent, for every input path string.
This holds under the side conditions that the resolved home path is
non-empty and shares no character with the token alphabet
`$USER_HOME$` — true of ordinary home directories such as `/home/u`;
without them the source's sequential `str.replace` calls are not
idempotent. -/
theorem claim_C9 (home : String) (hne : home.toList ≠ [])
    (hd : ∀ c ∈ home.toList, c ∉ uTok) (s : String) :
    expandHome (expandHome s home) home = expandHome s home ∧
    hasSub uTok (expandHome s home).toList = false ∧
    hasSub hTok (expandHome s home).toList = false := by
  obtain ⟨hu2, ht2⟩ := expandHome_noocc home hne hd s
  refine ⟨?_, hu2, ht2⟩
  apply string_eq_of_toList
  rw [expandHome_toList (expandHome s home) home,
    strReplace_of_noocc uTok home.toList _ hu2,
    strReplace_of_noocc hTok home.toList _ ht2]

/-- Witness for C9 at the spec's scenario: home `/home/u`, key
`$USER_HOME$/proj`. -/
theorem claim_C9_witness :
    expandHome (expandHome "$USER_HOME$/proj" "/home/u") "/home/u"
        = expandHome "$USER_HOME$/proj" "/home/u" ∧
    hasSub uTok (expandHome "$USER_HOME$/proj" "/home/u").toList = false ∧
    hasSub hTok (expandHome "$USER_HOME$/proj" "/home/u").toList = false :=
  claim_C9 "/home/u" (by decide) (by decide) "$USER_HOME$/proj"

theorem flagUpd_path (lp : String) (p : JetBrainsProject) :
    (if p.project_path == lp then { p with is_last_opened := true } else p).project_path
      = p.project_path := by
  by_cases h : (p.project_path == lp) = true
  · rw [if_pos h]
  · rw [if_neg h]

theorem map_path_flag (lp : String) (l : List JetBrainsProject) :
    (l.map (fun p => if p.project_path == lp then { p with is_last_opened := true } else p)).map
      (fun p => p.project_path) = l.map (fun p => p.project_path) := by
  induction l with
  | nil => rfl
  | cons a l ih => simp only [List.map_cons, flagUpd_path, ih]

theorem entryRecord_path (n v home : String) (e : XmlElem) :
    (entryRecord n v home e).project_path = expandHome (pyGet e "key" "") home := rfl

theorem parseComponent_paths (n v home : String) (acc : List JetBrainsProject) (comp : XmlElem) :
    (parseComponent n v home acc comp).map (fun p => p.project_path)
      = acc.map (fun p => p.project_path)
        ++ (specEntryKeysOfComponent comp).map (fun k => expandHome k home) := by
  by_cases hm : nameMatches comp = true
  · simp only [parseComponent, specEntryKeysOfComponent, hm, if_true]
    cases hadd : findAdditionalInfoMap comp with
    | none =>
      cases hlo : findLastOpened comp with
      | none => simp
      | some lo => rw [map_path_flag]; simp
    | some m =>
      cases hlo : findLastOpened comp with
      | none =>
        rw [List.map_append, List.map_map, List.map_map]
        rfl
      | some lo =>
        rw [map_path_flag, List.map_append, List.map_map, List.map_map]
        rfl
  · simp only [parseComponent, specEntryKeysOfComponent, hm, if_false]
    simp

theorem parse_fold_paths (n v home : String) :
    ∀ (comps : List XmlElem) (acc : List JetBrainsProject),
      (comps.foldl (parseComponent n v home) acc).map (fun p => p.project_path)
        = acc.map (fun p => p.project_path)
          ++ (comps.flatMap specEntryKeysOfComponent).map (fun k => expandHome k home) := by
  intro comps
  induction comps with
  | nil => intro acc; simp
  | cons c cs ih =>
    intro acc
    rw [List.foldl_cons, ih (parseComponent n v home acc c), parseComponent_paths]
    simp [List.map_append, List.append_assoc]

/-- Claim C1: for every successfully parsed metadata file, each `entry`
under a recent-projects map yields exactly one record, in order, and
that record's path is the entry's `key` attribute with the home tokens
expanded: the parser's paths are exactly the spec-side entry keys mapped
through `expandHome`. -/
theorem claim_C1 (root : XmlElem) (n v home : String) :
    (parse_recent_projects_xml (.ok root) n v home).map (fun p => p.project_path)
      = (specEntryKeys root).map (fun k => expandHome k home) := by
  show ((componentsOf root).foldl (parseComponent n v home) []).map (fun p => p.project_path)
      = (specEntryKeys root).map (fun k => expandHome k home)
  rw [parse_fold_paths n v home (componentsOf root) []]
  rfl

theorem flatMap_parse_err (n v home : String) :
    ∀ l : List (Except String XmlElem), (∀ f ∈ l, isErr f = true) →
      l.flatMap (fun f => parse_recent_projects_xml f n v home) = [] := by
  intro l
  induction l with
  | nil => intro _; rfl
  | cons f fs ih =>
    intro h
    have hf := h f (List.mem_cons_self f fs)
    have hfs : ∀ g ∈ fs, isErr g = true := fun g hg => h g (List.mem_cons_of_mem f hg)
    cases f with
    | error e =>
      rw [List.flatMap_cons, ih hfs]
      rfl
    | ok r => exact absurd hf (by simp [isErr])

/-- Claim C5: a metadata file whose parse fails contributes the empty
record list (the `except` handler logs and returns the accumulator that
is still empty), and the overall scan of the configuration directories
is unchanged by inserting a directory all of whose files fail to parse:
the records of all other files are still returned. -/
theorem claim_C5 (msg n v home : String) (pre post : List IdeDir) (d : IdeDir)
    (hfail : ∀ f ∈ d.files, isErr f = true) :
    parse_recent_projects_xml (.error msg) n v home = [] ∧
    find_all_recent_projects (some (pre ++ d :: post)) home
      = find_all_recent_projects (some (pre ++ post)) home := by
  refine ⟨rfl, ?_⟩
  simp only [find_all_recent_projects, List.flatMap_append, List.flatMap_cons]
  rw [flatMap_parse_err (splitIdeName d.name).1 (splitIdeName d.name).2 home d.files hfail]
  simp

/-- Witness for C5: a directory with one truncated file inserted next to
a directory with one well-formed file changes nothing. -/
theorem claim_C5_witness :
    parse_recent_projects_xml (.error "truncated") "R" "1" "/home/u" = [] ∧
    find_all_recent_projects (some ([cGoodDir] ++ cBadDir :: [])) "/home/u"
      = find_all_recent_projects (some ([cGoodDir] ++ [])) "/home/u" :=
  claim_C5 "truncated" "R" "1" "/home/u" [cGoodDir] [] cBadDir (by decide)

/-- Claim C6: the export emits exactly one interchange object per record
— same length, and position by position the same project path — and each
object's `exists` field is the filesystem probe `fs` supplied at export
time applied to that record's path.  The parsed record carries no
existence field at all, so nothing is cached at parse time. -/
theorem claim_C6 (projects : List JetBrainsProject) (fs : String → Bool)
    (isoOf : String → String) :
    (export_to_json_data projects fs isoOf).length = projects.length ∧
    (∀ i : Nat, (export_to_json_data projects fs isoOf)[i]?.map (fun r => r.project_path)
        = projects[i]?.map (fun p => p.project_path)) ∧
    (∀ i : Nat, (export_to_json_data projects fs isoOf)[i]?.map (fun r => r.existsOnDisk)
        = projects[i]?.map (fun p => fs p.project_path)) := by
  refine ⟨by simp [export_to_json_data], ?_, ?_⟩ <;> intro i <;>
    simp only [export_to_json_data, List.getElem?_map] <;>
    cases projects[i]? <;> simp [exportEntryOf]

/-- Claim C8 (amended): with the output-destination environment value
present the program silently exports to that destination and shows no
report; with it absent and a non-empty scan it shows the report and
exports to the fixed default name; but with it absent and an empty scan
it returns early after the "no projects" notice, producing neither
report nor export. -/
theorem claim_C8 (env : Option String) (scan : List JetBrainsProject) (fs : String → Bool)
    (isoOf : String → String) :
    (∀ dst, env = some dst → main_run env scan fs isoOf =
      { reportShown := false, exported := some (dst, export_to_json_data scan fs isoOf) }) ∧
    (env = none → scan ≠ [] → main_run env scan fs isoOf =
      { reportShown := true,
        exported := some (defaultJsonName, export_to_json_data scan fs isoOf) }) ∧
    (env = none → scan = [] → main_run env scan fs isoOf =
      { reportShown := false, exported := none }) := by
  refine ⟨?_, ?_, ?_⟩
  · intro dst h
    subst h
    rfl
  · intro h hne
    subst h
    cases scan with
    | nil => exact absurd rfl hne
    | cons a l => rfl
  · intro h he
    subst h
    subst he
    rfl

/-- Counterexample to C8 as stated: in interactive mode (no environment
value) an empty scan produces no export at all. -/
theorem claim_C8_cex :
    main_run none [] (fun _ => false) (fun s => s)
      = { reportShown := false, exported := none } := rfl

/-- Witness for C8 (amended) in both modes. -/
theorem claim_C8_witness :
    main_run (some "out.json") [recNone] (fun _ => false) (fun s => s)
      = { reportShown := false,
          exported := some ("out.json",
            export_to_json_data [recNone] (fun _ => false) (fun s => s)) } ∧
    main_run none [] (fun _ => false) (fun s => s)
      = { reportShown := false, exported := none } :=
  ⟨(claim_C8 (some "out.json") [recNone] (fun _ => false) (fun s => s)).1 "out.json" rfl,
   (claim_C8 none [] (fun _ => false) (fun s => s)).2.2 rfl rfl⟩

theorem dget_dset_same (d : PyDict) (k : String) (v dflt : Option String) :
    dget (dset d k v) k dflt = v := by
  unfold dget dset
  rw [List.find?_cons_of_pos _ (by simp)]

theorem dget_dset_ne (d : PyDict) (k k' : String) (v dflt : Option String) (h : k' ≠ k) :
    dget (dset d k v) k' dflt = dget d k' dflt := by
  unfold dget dset
  rw [List.find?_cons_of_neg _ (by simp [Ne.symm h])]

theorem dget_nil (k : String) (dflt : Option String) : dget [] k dflt = dflt := rfl

theorem foldl_optStep_ne (key : String) :
    ∀ (opts : List XmlElem) (d : PyDict) (dflt : Option String),
      (∀ o ∈ opts, o.attr "name" ≠ some key) →
      dget (opts.foldl optStep d) key dflt = dget d key dflt := by
  intro opts
  induction opts with
  | nil => intro d dflt _; rfl
  | cons o os ih =>
    intro d dflt h
    rw [List.foldl_cons,
      ih (optStep d o) dflt (fun g hg => h g (List.mem_cons_of_mem o hg))]
    have ho := h o (List.mem_cons_self o os)
    unfold optStep
    cases hn : o.attr "name" with
    | none => rfl
    | some nm =>
      cases hv : o.attr "value" with
      | none => rfl
      | some vl =>
        show dget (if (nm.isEmpty || vl.isEmpty) = true then d else dset d nm (some vl))
            key dflt = dget d key dflt
        by_cases he : (nm.isEmpty || vl.isEmpty) = true
        · rw [if_pos he]
        · rw [if_neg he]
          exact dget_dset_ne d nm key (some vl) dflt
            (fun hk => ho (by rw [hn, hk]))

theorem composeFrame_ne_empty (f : XmlElem) : composeFrame f ≠ "" := by
  intro h
  have h2 : (composeFrame f).toList = "".toList := congrArg String.toList h
  rw [show (composeFrame f).toList
        = 'x' :: '=' :: (pyAttrRepr f "x" ++ " y=" ++ pyAttrRepr f "y" ++
            " w=" ++ pyAttrRepr f "width" ++ " h=" ++ pyAttrRepr f "height").toList from by
      simp [composeFrame, String.toList, String.data_append]] at h2
  exact List.noConfusion h2

theorem entryRecord_frame (n v home : String) (e : XmlElem) :
    (entryRecord n v home e).frame = dget (buildProjectData e) "frame" (some "") := rfl

/-- The `frame` slot of the metadata dict, by cases on the frame child. -/
theorem dget_frame_buildProjectData (e mi : XmlElem)
    (h1 : findDescTag e "RecentProjectMetaInfo" = some mi)
    (h2 : ∀ o ∈ childrenTag mi "option", o.attr "name" ≠ some "frame") :
    dget (buildProjectData e) "frame" (some "")
      = match (childrenTag mi "frame").head? with
        | some f => some (composeFrame f)
        | none => some "" := by
  simp only [buildProjectData, h1]
  split
  · exact dget_dset_same _ _ _ _
  · split
    · rw [dget_dset_ne _ _ _ _ _ (by decide),
        foldl_optStep_ne "frame" (childrenTag mi "option") _ _ h2,
        dget_dset_ne _ _ _ _ _ (by decide),
        dget_dset_ne _ _ _ _ _ (by decide)]
      rfl
    · rw [foldl_optStep_ne "frame" (childrenTag mi "option") _ _ h2,
        dget_dset_ne _ _ _ _ _ (by decide),
        dget_dset_ne _ _ _ _ _ (by decide)]
      rfl

/-- Claim C2 (amended): `windowGeometry` (the `frame` field) is
populated if and only if the frame element exists; whenever the frame
element is present the field is the composed string even when some of
the four attributes are missing (they are rendered as `None`), and when
the frame element is absent the field is the empty-string default —
provided no generic option is itself named `frame`. -/
theorem claim_C2 (n v home : String) (e mi : XmlElem)
    (h1 : findDescTag e "RecentProjectMetaInfo" = some mi)
    (h2 : ∀ o ∈ childrenTag mi "option", o.attr "name" ≠ some "frame") :
    ((childrenTag mi "frame").head? = none → (entryRecord n v home e).frame = some "") ∧
    (∀ f, (childrenTag mi "frame").head? = some f →
      (entryRecord n v home e).frame = some (composeFrame f) ∧ composeFrame f ≠ "") := by
  rw [entryRecord_frame, dget_frame_buildProjectData e mi h1 h2]
  constructor
  · intro hf
    rw [hf]
  · intro f hf
    rw [hf]
    exact ⟨rfl, composeFrame_ne_empty f⟩

/-- Counterexample to C2 as stated: a frame element carrying only `x`
(with `y`, `width`, `height` absent) still yields a populated
`windowGeometry`, with the missing attributes rendered as `None` —
it is not absent. -/
theorem claim_C2_cex :
    cFrame2.attr "x" = some "1" ∧ cFrame2.attr "y" = none ∧
    cFrame2.attr "width" = none ∧ cFrame2.attr "height" = none ∧
    (parse_recent_projects_xml (.ok cRoot2) "R" "1" "/home/u").map (fun p => p.frame)
      = [some "x=1 y=None w=None h=None"] := by
  refine ⟨rfl, rfl, rfl, rfl, ?_⟩
  decide

/-- Witness for C2 (amended) on the incomplete-frame fixture. -/
theorem claim_C2_witness :
    (entryRecord "R" "1" "/home/u" cEntry2).frame = some (composeFrame cFrame2) ∧
    composeFrame cFrame2 ≠ "" :=
  (claim_C2 "R" "1" "/home/u" cEntry2 cMi2 rfl (by decide)).2 cFrame2 rfl

/-- Claim C3 (amended): for an entry with no nested meta info, the
timestamp and color fields are represented as absent (`None`), but the
string-valued optional fields (`displayName`, `frameTitle`, `build`,
`metadata`, `frame`) are represented as the empty string, not as absent:
the constructor's defaults are `''` for them. -/
theorem claim_C3 (n v home : String) (e : XmlElem)
    (h : findDescTag e "RecentProjectMetaInfo" = none) :
    entryRecord n v home e =
      { ide_name := n, ide_version := v,
        project_path := expandHome (pyGet e "key" "") home,
        display_name := some "", frame_title := some "",
        activation_timestamp := none, project_open_timestamp := none,
        build := some "", metadata := some "", frame := some "",
        color_index := none, is_last_opened := false } := by
  unfold entryRecord JetBrainsProject.init buildProjectData
  rw [h]
  rfl

/-- Counterexample to C3 as stated: an entry with no metadata element
yields `display_name = some ""` — the empty string, not an absent
value. -/
theorem claim_C3_cex :
    findDescTag cEntry3 "RecentProjectMetaInfo" = none ∧
    (parse_recent_projects_xml (.ok cRoot3) "R" "1" "/home/u").map (fun p => p.display_name)
      = [some ""] ∧
    (parse_recent_projects_xml (.ok cRoot3) "R" "1" "/home/u").map (fun p => p.display_name)
      ≠ [none] := by
  refine ⟨rfl, by decide, by decide⟩

/-- Witness for C3 (amended) on the metadata-less entry fixture. -/
theorem claim_C3_witness :
    entryRecord "R" "1" "/home/u" cEntry3 =
      { ide_name := "R", ide_version := "1",
        project_path := expandHome (pyGet cEntry3 "key" "") "/home/u",
        display_name := some "", frame_title := some "",
        activation_timestamp := none, project_open_timestamp := none,
        build := some "", metadata := some "", frame := some "",
        color_index := none, is_last_opened := false } :=
  claim_C3 "R" "1" "/home/u" cEntry3 rfl

theorem strLtB_cons (x y : Char) (xs ys : List Char) :
    strLtB (x :: xs) (y :: ys)
      = (if x < y then true else if y < x then false else strLtB xs ys) := rfl

theorem strLtB_asymm : ∀ a b : List Char, strLtB a b = true → strLtB b a = false := by
  intro a
  induction a with
  | nil =>
    intro b h
    cases b with
    | nil => exact absurd h (by simp [strLtB])
    | cons y ys => rfl
  | cons x xs ih =>
    intro b h
    cases b with
    | nil => exact absurd h (by simp [strLtB])
    | cons y ys =>
      rw [strLtB_cons] at h
      rw [strLtB_cons]
      by_cases hxy : x < y
      · rw [if_neg (lt_asymm hxy), if_pos hxy]
      · rw [if_neg hxy] at h
        by_cases hyx : y < x
        · rw [if_pos hyx] at h
          exact absurd h (by simp)
        · rw [if_neg hyx] at h
          rw [if_neg hyx, if_neg hxy]
          exact ih ys h

theorem strLtB_trans : ∀ a b c : List Char,
    strLtB a b = true → strLtB b c = true → strLtB a c = true := by
  intro a
  induction a with
  | nil =>
    intro b c hab hbc
    cases b with
    | nil => exact absurd hab (by simp [strLtB])
    | cons y ys =>
      cases c with
      | nil => exact absurd hbc (by simp [strLtB])
      | cons z zs => rfl
  | cons x xs ih =>
    intro b c hab hbc
    cases b with
    | nil => exact absurd hab (by simp [strLtB])
    | cons y ys =>
      cases c with
      | nil => exact absurd hbc (by simp [strLtB])
      | cons z zs =>
        rw [strLtB_cons] at hab hbc
        rw [strLtB_cons]
        by_cases hxy : x < y
        · by_cases hyz : y < z
          · rw [if_pos (lt_trans hxy hyz)]
          · rw [if_neg hyz] at hbc
            by_cases hzy : z < y
            · rw [if_pos hzy] at hbc
              exact absurd hbc (by simp)
            · have hyzeq : y = z := le_antisymm (not_lt.mp hzy) (not_lt.mp hyz)
              rw [if_pos (hyzeq ▸ hxy)]
        · rw [if_neg hxy] at hab
          by_cases hyx : y < x
          · rw [if_pos hyx] at hab
            exact absurd hab (by simp)
          · rw [if_neg hyx] at hab
            have hxyeq : x = y := le_antisymm (not_lt.mp hyx) (not_lt.mp hxy)
            subst hxyeq
            by_cases hyz : x < z
            · rw [if_pos hyz]
            · rw [if_neg hyz] at hbc
              by_cases hzy : z < x
              · rw [if_pos hzy] at hbc
                exact absurd hbc (by simp)
              · rw [if_neg hzy] at hbc
                rw [if_neg hyz, if_neg hzy]
                exact ih ys zs hab hbc

theorem insertDesc_mem (x z : JetBrainsProject) :
    ∀ l : List JetBrainsProject, z ∈ insertDesc x l → z = x ∨ z ∈ l := by
  intro l
  induction l with
  | nil =>
    intro h
    rcases List.mem_singleton.mp h with h'
    exact Or.inl h'
  | cons y ys ih =>
    intro h
    unfold insertDesc at h
    by_cases hc : strLtB (sortKeyStr y) (sortKeyStr x) = true
    · rw [if_pos hc] at h
      rcases List.mem_cons.mp h with h' | h'
      · exact Or.inl h'
      · exact Or.inr h'
    · rw [if_neg hc] at h
      rcases List.mem_cons.mp h with h' | h'
      · exact Or.inr (h' ▸ List.mem_cons_self y ys)
      · rcases ih h' with h'' | h''
        · exact Or.inl h''
        · exact Or.inr (List.mem_cons_of_mem y h'')

theorem insertDesc_pairwise (x : JetBrainsProject) :
    ∀ l : List JetBrainsProject,
      l.Pairwise (fun a b => strLtB (sortKeyStr a) (sortKeyStr b) = false) →
      (insertDesc x l).Pairwise (fun a b => strLtB (sortKeyStr a) (sortKeyStr b) = false) := by
  intro l
  induction l with
  | nil => intro _; simp [insertDesc]
  | cons y ys ih =>
    intro h
    rcases List.pairwise_cons.mp h with ⟨hy, hys⟩
    unfold insertDesc
    by_cases hc : strLtB (sortKeyStr y) (sortKeyStr x) = true
    · rw [if_pos hc]
      refine List.pairwise_cons.mpr ⟨?_, h⟩
      intro z hz
      rcases List.mem_cons.mp hz with h' | h'
      · subst h'
        exact strLtB_asymm _ _ hc
      · cases hzx : strLtB (sortKeyStr x) (sortKeyStr z) with
        | false => rfl
        | true =>
          have : strLtB (sortKeyStr y) (sortKeyStr z) = true := strLtB_trans _ _ _ hc hzx
          rw [hy z h'] at this
          exact this.symm
    · rw [if_neg hc]
      refine List.pairwise_cons.mpr ⟨?_, ih hys⟩
      intro z hz
      rcases insertDesc_mem x z ys hz with h' | h'
      · subst h'
        exact Bool.eq_false_iff.mpr hc
      · exact hy z h'

theorem pySortDesc_pairwise (l : List JetBrainsProject) :
    (pySortDesc l).Pairwise (fun a b => strLtB (sortKeyStr a) (sortKeyStr b) = false) := by
  unfold pySortDesc
  suffices hgen : ∀ (m : List JetBrainsProject) (acc : List JetBrainsProject),
      acc.Pairwise (fun a b => strLtB (sortKeyStr a) (sortKeyStr b) = false) →
      (m.foldl (fun acc x => insertDesc x acc) acc).Pairwise
        (fun a b => strLtB (sortKeyStr a) (sortKeyStr b) = false) by
    exact hgen l [] (by simp)
  intro m
  induction m with
  | nil => intro acc hacc; simpa using hacc
  | cons a as ih =>
    intro acc hacc
    rw [List.foldl_cons]
    exact ih (insertDesc a acc) (insertDesc_pairwise a acc hacc)

theorem sortKeyStr_none (p : JetBrainsProject) (h : p.activation_timestamp = none) :
    sortKeyStr p = ['0'] := by
  simp [sortKeyStr, h]

/-- Claim C4 (amended): both views sort by the lexicographic order of
the timestamp's string value (`p.activation_timestamp or '0'`), not by
a numeric value; absence is the string `'0'`.  A record with an absent
timestamp therefore sorts strictly after a record with a present one
exactly when the present timestamp string is lexicographically greater
than `'0'`; a present timestamp whose string ties with `'0'` is not
ordered after the absent one (stability keeps the original order, see
the counterexample).  Stated here: with `q` absent and `p` present and
lexicographically above `'0'`, `q` never precedes `p` in either view. -/
theorem claim_C4 (l : List JetBrainsProject) (k : String) (p q : JetBrainsProject)
    (hq : q.activation_timestamp = none)
    (hp : strLtB ['0'] (sortKeyStr p) = true) :
    ¬ List.Sublist [q, p] (display_all_sorted_order l) ∧
    ¬ List.Sublist [q, p] (groupedOrder l k) := by
  constructor
  · intro hsub
    have hpw := (pySortDesc_pairwise l).sublist hsub
    rcases List.pairwise_cons.mp hpw with ⟨hqp, _⟩
    have := hqp p (List.mem_singleton.mpr rfl)
    rw [sortKeyStr_none q hq] at this
    rw [this] at hp
    exact Bool.noConfusion hp
  · intro hsub
    have hpw := (pySortDesc_pairwise (l.filter (fun r => ideKey r == k))).sublist hsub
    rcases List.pairwise_cons.mp hpw with ⟨hqp, _⟩
    have := hqp p (List.mem_singleton.mpr rfl)
    rw [sortKeyStr_none q hq] at this
    rw [this] at hp
    exact Bool.noConfusion hp

/-- Counterexample to C4 as stated: a present timestamp `"0"` ties with
the absent-timestamp key `'0'`, and the stable sort then leaves the
absent-timestamp record *before* the present one in both views, so the
absent record does not sort strictly after every present record. -/
theorem claim_C4_cex :
    recNone.activation_timestamp = none ∧
    recZero.activation_timestamp = some "0" ∧
    display_all_sorted_order [recNone, recZero] = [recNone, recZero] ∧
    groupedOrder [recNone, recZero] (ideKey recZero) = [recNone, recZero] := by
  exact ⟨rfl, rfl, by decide, by decide⟩

/-- Witness for C4 (amended): with present timestamp `"5"` the absent
record indeed never precedes it. -/
theorem claim_C4_witness :
    ¬ List.Sublist [recNone, recFive] (display_all_sorted_order [recNone, recFive]) ∧
    ¬ List.Sublist [recNone, recFive] (groupedOrder [recNone, recFive] (ideKey recFive)) :=
  claim_C4 [recNone, recFive] (ideKey recFive) recFive recNone rfl (by decide)

theorem entryRecord_flag (n v home : String) (e : XmlElem) :
    (entryRecord n v home e).is_last_opened = false := rfl

theorem parseComponent_skip (n v home : String) (acc : List JetBrainsProject) (comp : XmlElem)
    (hm : nameMatches comp = false) : parseComponent n v home acc comp = acc := by
  unfold parseComponent
  rw [if_neg (by rw [hm]; exact Bool.noConfusion)]

theorem foldl_skip (n v home : String) :
    ∀ (comps : List XmlElem) (acc : List JetBrainsProject),
      (∀ c ∈ comps, nameMatches c = false) →
      comps.foldl (parseComponent n v home) acc = acc := by
  intro comps
  induction comps with
  | nil => intro acc _; rfl
  | cons c cs ih =>
    intro acc h
    rw [List.foldl_cons, parseComponent_skip n v home acc c (h c (List.mem_cons_self c cs))]
    exact ih acc (fun g hg => h g (List.mem_cons_of_mem c hg))

theorem acc1_sound (n v home : String) (L : List XmlElem) (acc : List JetBrainsProject)
    (hacc : ∀ p ∈ acc, p.is_last_opened = true → flagWitness L p) (mopt : Option XmlElem) :
    ∀ p ∈ (match mopt with
           | some m => acc ++ (childrenTag m "entry").map (entryRecord n v home)
           | none => acc),
      p.is_last_opened = true → flagWitness L p := by
  intro p hp hflag
  cases mopt with
  | none => exact hacc p hp hflag
  | some m =>
    rcases List.mem_append.mp hp with h' | h'
    · exact hacc p h' hflag
    · rcases List.mem_map.mp h' with ⟨e, _, hpe⟩
      rw [← hpe] at hflag
      exact Bool.noConfusion (show false = true from hflag)

theorem parseComponent_sound (n v home : String) (L : List XmlElem)
    (acc : List JetBrainsProject) (comp : XmlElem) (hcomp : comp ∈ L)
    (hacc : ∀ p ∈ acc, p.is_last_opened = true → flagWitness L p) :
    ∀ p ∈ parseComponent n v home acc comp, p.is_last_opened = true → flagWitness L p := by
  intro p hp hflag
  by_cases hm : nameMatches comp = true
  · simp only [parseComponent, hm, eq_self_iff_true, if_true] at hp
    cases heq : findLastOpened comp with
    | none =>
      rw [heq] at hp
      have hp' : p ∈ (match findAdditionalInfoMap comp with
          | some m => acc ++ (childrenTag m "entry").map (entryRecord n v home)
          | none => acc) := hp
      exact acc1_sound n v home L acc hacc _ p hp' hflag
    | some lo =>
      rw [heq] at hp
      have hp' : p ∈ (match findAdditionalInfoMap comp with
          | some m => acc ++ (childrenTag m "entry").map (entryRecord n v home)
          | none => acc).map (fun (q : JetBrainsProject) =>
            if q.project_path == pyGet lo "value" "" then
              { q with is_last_opened := true } else q) := hp
      rcases List.mem_map.mp hp' with ⟨p0, hp0, hup⟩
      by_cases hcond : (p0.project_path == pyGet lo "value" "") = true
      · rw [if_pos hcond] at hup
        have hpath : p.project_path = pyGet lo "value" "" := by
          rw [← hup]
          exact eq_of_beq hcond
        refine ⟨comp, hcomp, hm, ?_⟩
        simp [designatorOf, heq, hpath]
      · rw [if_neg hcond] at hup
        subst hup
        exact acc1_sound n v home L acc hacc _ p0 hp0 hflag
  · rw [parseComponent_skip n v home acc comp (Bool.eq_false_iff.mpr hm)] at hp
    exact hacc p hp hflag

theorem parse_fold_sound (n v home : String) (L : List XmlElem) :
    ∀ (comps : List XmlElem) (acc : List JetBrainsProject),
      (∀ c ∈ comps, c ∈ L) →
      (∀ p ∈ acc, p.is_last_opened = true → flagWitness L p) →
      ∀ p ∈ comps.foldl (parseComponent n v home) acc,
        p.is_last_opened = true → flagWitness L p := by
  intro comps
  induction comps with
  | nil => intro acc _ hacc; exact hacc
  | cons c cs ih =>
    intro acc hin hacc
    rw [List.foldl_cons]
    exact ih _ (fun g hg => hin g (List.mem_cons_of_mem c hg))
      (parseComponent_sound n v home L acc c (hin c (List.mem_cons_self c cs)) hacc)

theorem lastFlag_complete_single (n v home : String) (root : XmlElem)
    (pre post : List XmlElem) (comp : XmlElem) (d : String)
    (hcomps : componentsOf root = pre ++ comp :: post)
    (hpre : ∀ c ∈ pre, nameMatches c = false)
    (hpost : ∀ c ∈ post, nameMatches c = false)
    (hd : designatorOf comp = some d) :
    ∀ p ∈ parse_recent_projects_xml (.ok root) n v home,
      p.project_path = d → p.is_last_opened = true := by
  intro p hp hpath
  have hparse : parse_recent_projects_xml (.ok root) n v home
      = parseComponent n v home [] comp := by
    show (componentsOf root).foldl (parseComponent n v home) [] = _
    rw [hcomps, List.foldl_append, foldl_skip n v home pre [] hpre, List.foldl_cons,
      foldl_skip n v home post _ hpost]
  rw [hparse] at hp
  obtain ⟨lo, heq, hval⟩ : ∃ lo, findLastOpened comp = some lo ∧ pyGet lo "value" "" = d := by
    unfold designatorOf at hd
    cases hfl : findLastOpened comp with
    | none =>
      rw [hfl] at hd
      exact absurd hd (by simp)
    | some lo =>
      rw [hfl] at hd
      refine ⟨lo, rfl, ?_⟩
      simpa using hd
  by_cases hm : nameMatches comp = true
  · simp only [parseComponent, hm, eq_self_iff_true, if_true] at hp
    rw [heq] at hp
    have hp' : p ∈ (match findAdditionalInfoMap comp with
        | some m => ([] : List JetBrainsProject)
            ++ (childrenTag m "entry").map (entryRecord n v home)
        | none => ([] : List JetBrainsProject)).map (fun (q : JetBrainsProject) =>
          if q.project_path == pyGet lo "value" "" then
            { q with is_last_opened := true } else q) := hp
    rcases List.mem_map.mp hp' with ⟨p0, hp0, hup⟩
    by_cases hcond : (p0.project_path == pyGet lo "value" "") = true
    · rw [if_pos hcond] at hup
      rw [← hup]
    · rw [if_neg hcond] at hup
      subst hup
      exact absurd (beq_iff_eq.mpr (hpath.trans hval.symm)) hcond
  · rw [parseComponent_skip n v home [] comp (Bool.eq_false_iff.mpr hm)] at hp
    exact absurd hp (List.not_mem_nil p)

/-- Claim C7 (amended): `isLastOpened` defaults to false on every
constructed record; a record carries `isLastOpened = true` only when
some matching component of the file has a `lastOpenedProject` designator
equal to its path (so a designator matching no record path leaves every
record unflagged); and when the file's recent-projects data lies in a
single matching component, every record whose path equals that
component's designator value is flagged.  The flagging is applied per
component over the records accumulated so far, not once after the whole
file, which is what the counterexample exploits. -/
theorem claim_C7 (n v home : String) :
    (∀ e : XmlElem, (entryRecord n v home e).is_last_opened = false) ∧
    (∀ (root : XmlElem) (p : JetBrainsProject),
      p ∈ parse_recent_projects_xml (.ok root) n v home → p.is_last_opened = true →
        flagWitness (componentsOf root) p) ∧
    (∀ (root : XmlElem) (pre post : List XmlElem) (comp : XmlElem) (d : String),
      componentsOf root = pre ++ comp :: post →
      (∀ c ∈ pre, nameMatches c = false) → (∀ c ∈ post, nameMatches c = false) →
      designatorOf comp = some d →
      ∀ p ∈ parse_recent_projects_xml (.ok root) n v home,
        p.project_path = d → p.is_last_opened = true) := by
  refine ⟨fun e => rfl, ?_, ?_⟩
  · intro root p hp hflag
    exact parse_fold_sound n v home (componentsOf root) (componentsOf root) []
      (fun c hc => hc) (fun q hq => absurd hq (List.not_mem_nil q)) p hp hflag
  · intro root pre post comp d h1 h2 h3 h4
    exact lastFlag_complete_single n v home root pre post comp d h1 h2 h3 h4

/-- Counterexample to C7 as stated: in a file with two matching
components, the first holding only the designator `/a` and the second
holding the entry keyed `/a`, the record whose path equals the
designator's value is *not* flagged, because the designator pass of the
first component ran before the record existed. -/
theorem claim_C7_cex :
    designatorOf cComp7a = some "/a" ∧
    componentsOf cRoot7 = [cComp7a, cComp7b] ∧
    nameMatches cComp7a = true ∧
    (parse_recent_projects_xml (.ok cRoot7) "R" "1" "/home/u").map
      (fun p => (p.project_path, p.is_last_opened)) = [("/a", false)] :=
  ⟨rfl, rfl, rfl, by decide⟩

/-- Witness for C7 (amended): in a single-component file the record
matching the designator is flagged. -/
theorem claim_C7_witness :
    recB ∈ parse_recent_projects_xml (.ok cRootB) "R" "1" "/home/u" ∧
    recB.is_last_opened = true :=
  ⟨by decide,
   (claim_C7 "R" "1" "/home/u").2.2 cRootB [] [] cCompB "/a" rfl
     (fun c hc => absurd hc (List.not_mem_nil c))
     (fun c hc => absurd hc (List.not_mem_nil c)) rfl recB (by decide) rfl⟩

theorem acc1_tokenFree (n v home : String) (hne : home.toList ≠ [])
    (hdisj : ∀ c ∈ home.toList, c ∉ uTok) (acc : List JetBrainsProject)
    (hacc : ∀ p ∈ acc, tokenFree p) (mopt : Option XmlElem) :
    ∀ p ∈ (match mopt with
           | some m => acc ++ (childrenTag m "entry").map (entryRecord n v home)
           | none => acc), tokenFree p := by
  intro p hp
  cases mopt with
  | none => exact hacc p hp
  | some m =>
    rcases List.mem_append.mp hp with h' | h'
    · exact hacc p h'
    · rcases List.mem_map.mp h' with ⟨e, _, hpe⟩
      rw [← hpe]
      obtain ⟨hu, hh⟩ := expandHome_noocc home hne hdisj (pyGet e "key" "")
      exact ⟨rfl, hu, hh⟩

theorem parseComponent_tokenFree (n v home : String) (hne : home.toList ≠ [])
    (hdisj : ∀ c ∈ home.toList, c ∉ uTok) (L : List XmlElem)
    (htok : ∀ c ∈ L, nameMatches c = true → designatorTokenized c = true)
    (acc : List JetBrainsProject) (comp : XmlElem) (hcomp : comp ∈ L)
    (hacc : ∀ p ∈ acc, tokenFree p) :
    ∀ p ∈ parseComponent n v home acc comp, tokenFree p := by
  intro p hp
  by_cases hm : nameMatches comp = true
  · simp only [parseComponent, hm, eq_self_iff_true, if_true] at hp
    cases heq : findLastOpened comp with
    | none =>
      rw [heq] at hp
      have hp' : p ∈ (match findAdditionalInfoMap comp with
          | some m => acc ++ (childrenTag m "entry").map (entryRecord n v home)
          | none => acc) := hp
      exact acc1_tokenFree n v home hne hdisj acc hacc _ p hp'
    | some lo =>
      rw [heq] at hp
      have hp' : p ∈ (match findAdditionalInfoMap comp with
          | some m => acc ++ (childrenTag m "entry").map (entryRecord n v home)
          | none => acc).map (fun (q : JetBrainsProject) =>
            if q.project_path == pyGet lo "value" "" then
              { q with is_last_opened := true } else q) := hp
      rcases List.mem_map.mp hp' with ⟨p0, hp0, hup⟩
      have hp0tf : tokenFree p0 := acc1_tokenFree n v home hne hdisj acc hacc _ p0 hp0
      have htokd : (hasSub uTok (pyGet lo "value" "").toList
          || hasSub hTok (pyGet lo "value" "").toList) = true := by
        have hmain := htok comp hcomp hm
        unfold designatorTokenized designatorOf at hmain
        rw [heq] at hmain
        simpa using hmain
      by_cases hcond : (p0.project_path == pyGet lo "value" "") = true
      · exfalso
        rcases hp0tf with ⟨_, hu, hh⟩
        rw [eq_of_beq hcond] at hu hh
        rw [hu, hh] at htokd
        exact Bool.noConfusion htokd
      · rw [if_neg hcond] at hup
        rw [← hup]
        exact hp0tf
  · rw [parseComponent_skip n v home acc comp (Bool.eq_false_iff.mpr hm)] at hp
    exact hacc p hp

theorem parse_fold_tokenFree (n v home : String) (hne : home.toList ≠ [])
    (hdisj : ∀ c ∈ home.toList, c ∉ uTok) (L : List XmlElem)
    (htok : ∀ c ∈ L, nameMatches c = true → designatorTokenized c = true) :
    ∀ (comps : List XmlElem) (acc : List JetBrainsProject),
      (∀ c ∈ comps, c ∈ L) →
      (∀ p ∈ acc, tokenFree p) →
      ∀ p ∈ comps.foldl (parseComponent n v home) acc, tokenFree p := by
  intro comps
  induction comps with
  | nil => intro acc _ hacc; exact hacc
  | cons c cs ih =>
    intro acc hin hacc
    rw [List.foldl_cons]
    exact ih _ (fun g hg => hin g (List.mem_cons_of_mem c hg))
      (parseComponent_tokenFree n v home hne hdisj L htok acc c
        (hin c (List.mem_cons_self c cs)) hacc)

/-- Claim C10: the designator is compared literally against
placeholder-expanded record paths.  Part one: if every matching
component's designator value still contains a home token, then (because
expanded paths contain no token once the resolved home is non-empty and
disjoint from the token alphabet) the designator matches no record and
every record of the file stays unflagged.  Part two: in a
single-matching-component file, every record whose path equals the
designator's literal value is flagged — several records sharing it are
all flagged. -/
theorem claim_C10 (home : String) (hne : home.toList ≠ [])
    (hdisj : ∀ c ∈ home.toList, c ∉ uTok) :
    (∀ (root : XmlElem) (n v : String),
      (∀ c ∈ componentsOf root, nameMatches c = true → designatorTokenized c = true) →
      ∀ p ∈ parse_recent_projects_xml (.ok root) n v home, p.is_last_opened = false) ∧
    (∀ (root : XmlElem) (n v : String) (pre post : List XmlElem) (comp : XmlElem) (d : String),
      componentsOf root = pre ++ comp :: post →
      (∀ c ∈ pre, nameMatches c = false) → (∀ c ∈ post, nameMatches c = false) →
      designatorOf comp = some d →
      ∀ p ∈ parse_recent_projects_xml (.ok root) n v home,
        p.project_path = d → p.is_last_opened = true) := by
  constructor
  · intro root n v htok p hp
    exact (parse_fold_tokenFree n v home hne hdisj (componentsOf root) htok
      (componentsOf root) [] (fun c hc => hc)
      (fun q hq => absurd hq (List.not_mem_nil q)) p hp).1
  · intro root n v pre post comp d h1 h2 h3 h4
    exact lastFlag_complete_single n v home root pre post comp d h1 h2 h3 h4

/-- Witness for C10: with home `/home/u`, a file whose designator and
entry key are both `$USER_HOME$/proj` yields the expanded, unflagged
record `/home/u/proj`; and in the single-component file with two `/a`
records and designator `/a`, the matching record is flagged. -/
theorem claim_C10_witness :
    recT ∈ parse_recent_projects_xml (.ok cRootT) "R" "1" "/home/u" ∧
    recT.is_last_opened = false ∧
    designatorOf cCompT = some "$USER_HOME$/proj" ∧
    recB.is_last_opened = true :=
  ⟨by decide,
   (claim_C10 "/home/u" (by decide) (by decide)).1 cRootT "R" "1" (by decide) recT (by decide),
   rfl,
   (claim_C10 "/home/u" (by decide) (by decide)).2 cRootB "R" "1" [] [] cCompB "/a" rfl
     (fun c hc => absurd hc (List.not_mem_nil c))
     (fun c hc => absurd hc (List.not_mem_nil c)) rfl recB (by decide) rfl⟩
